import Mathlib

/-!
Verification of the llmhive coordinator (src/server/server.py) against its
natural-language specification.

The Python module is shallowly embedded: every dictionary becomes a total
function with the default of the dictionary (or an `Option`-valued function when
the code distinguishes key absence), floats that only flow through arithmetic
become `Rat`, wall-clock timestamps become explicit `Nat` arguments, and the
single `asyncio` event loop is modelled by the fact that code between two
`await` points runs atomically, so shared state is sampled once per
suspension point.
-/

/-- Update of a string-keyed map at one key (Python `d[k] = v`). -/
def updF {α : Type} (f : String → α) (k : String) (v : α) : String → α :=
  fun x => if x = k then v else f x

theorem updF_same {α : Type} (f : String → α) (k : String) (v : α) :
    updF f k v k = v := by
  simp [updF]

theorem updF_other {α : Type} (f : String → α) (k x : String) (v : α)
    (h : x ≠ k) : updF f k v x = f x := by
  simp [updF, h]

/-- The `JobStatus` enum of server.py (lines 66-70). -/
inductive JobStatus where
  | pending
  | in_progress
  | completed
  | failed
  deriving DecidableEq, Repr

/-- The `Job` pydantic model (server.py lines 60-63). -/
structure Job where
  job_id : String
  model : String
  prompt : String
  deriving DecidableEq, Repr

/-- The per-job runtime record stored in `JobQueue.jobs` (server.py lines
91-99).  `created_at` is the timestamp passed in by the caller. -/
structure JobData where
  status : JobStatus
  model : String
  prompt : String
  chunks : List String
  done : Bool
  error : Option String
  created_at : Nat
  deriving DecidableEq, Repr

/-- State of `JobQueue` (server.py lines 86-88): `jobs` is the runtime map
(`Option`-valued, since the code tests key membership), `pending` the
per-model FIFO of job ids (Python initialises a missing key to `[]`, which
coincides with the total-function default). -/
structure QState where
  jobs : String → Option JobData
  pending : String → List String

/-- The fresh `JobQueue()` (server.py `__init__`, lines 86-88). -/
def qInit : QState := ⟨fun _ => none, fun _ => []⟩

/-- Method `JobQueue.add_job` (server.py lines 90-104): create the runtime entry
with status Pending and append the job id to the per-model FIFO. -/
def addJob (now : Nat) (job : Job) (s : QState) : QState :=
  { jobs := updF s.jobs job.job_id
      (some ⟨JobStatus.pending, job.model, job.prompt, [], false, none, now⟩),
    pending := updF s.pending job.model (s.pending job.model ++ [job.job_id]) }

/-- Method `JobQueue.get_next_job` (server.py lines 106-118): scan the model list,
pop the head of the first non-empty FIFO, mark it InProgress and return it.
The source indexes `self.jobs[job_id]` directly, which raises `KeyError` on a
missing key; that failure is the `Except.error` branch here. -/
def getNextJob (models : List String) (s : QState) :
    Except Unit (Option Job × QState) :=
  match models with
  | [] => Except.ok (none, s)
  | m :: rest =>
    match s.pending m with
    | [] => getNextJob rest s
    | jid :: tl =>
      match s.jobs jid with
      | none => Except.error ()
      | some jd =>
        Except.ok (some ⟨jid, jd.model, jd.prompt⟩,
          { jobs := updF s.jobs jid (some { jd with status := JobStatus.in_progress }),
            pending := updF s.pending m tl })

/-- Method `JobQueue.add_chunk` (server.py lines 120-122): append when the job id is
known, silently drop otherwise.  There is no check of the `done` flag. -/
def addChunk (jid chunk : String) (s : QState) : QState :=
  match s.jobs jid with
  | none => s
  | some jd =>
    { s with jobs := updF s.jobs jid (some { jd with chunks := jd.chunks ++ [chunk] }) }

/-- Python truthiness of an `Optional[str]`: `None` and `""` are falsy. -/
def strTruthy : Option String → Bool
  | none => false
  | some s => s != ""

/-- Method `JobQueue.mark_done` (server.py lines 124-132): on a known job id, set
status Failed and record the error when `error` is truthy, else set status
Completed; either way set `done`.  There is no guard on an already-done
job. -/
def markDone (jid : String) (error : Option String) (s : QState) : QState :=
  match s.jobs jid with
  | none => s
  | some jd =>
    let jd' := if strTruthy error then
        { jd with status := JobStatus.failed, error := error, done := true }
      else
        { jd with status := JobStatus.completed, done := true }
    { s with jobs := updF s.jobs jid (some jd') }

/-- Method `JobQueue.get_chunks` (server.py lines 134-137). -/
def getChunks (jid : String) (s : QState) : List String :=
  match s.jobs jid with
  | none => []
  | some jd => jd.chunks

/-- Method `JobQueue.is_done` (server.py lines 139-142). -/
def isDone (jid : String) (s : QState) : Bool :=
  match s.jobs jid with
  | none => false
  | some jd => jd.done

/-- Method `JobQueue.get_status` (server.py lines 144-147). -/
def getStatus (jid : String) (s : QState) : Option JobStatus :=
  match s.jobs jid with
  | none => none
  | some jd => some jd.status

/-- Ledger row `Job` of models.py (lines 15-34), as read and written by
server.py.  Timestamps are abstract `Nat` ticks. -/
structure DBJobRec where
  job_id : String
  status : String
  model : String
  node_id : Option String
  node_address : Option String
  prompt_tokens : Option Int
  completion_tokens : Option Int
  total_tokens : Option Int
  created_at : Option Nat
  completed_at : Option Nat
  deriving DecidableEq, Repr

/-- The status/completion update of the `/jobs/{job_id}/done` handler
(server.py lines 392-399): on an existing ledger row, set `status` to
"failed" iff the `error` query parameter is truthy, else "completed", and
stamp `completed_at`.  The handler also scans the accumulated chunks for
token counts and node identity (lines 401-415); that scan writes only the
token/node columns and never touches `status`, so it is not modelled here. -/
def markJobDoneStatus (now : Nat) (err : Option String) (row : Option DBJobRec) :
    Option DBJobRec :=
  match row with
  | none => none
  | some db =>
    some { db with status := if strTruthy err then "failed" else "completed",
                   completed_at := some now }

/-- C3 (corrected): `add_chunk` and `mark_done` are no-ops only for unknown
job ids.  For a job already marked terminal, `add_chunk` still appends the
chunk (the chunk list is not immutable), and `mark_done` overwrites the
status and error according to its latest argument while keeping the terminal
flag set. -/
theorem c3_terminal_ops (jid c : String) (err : Option String) (s : QState) :
    (s.jobs jid = none → addChunk jid c s = s ∧ markDone jid err s = s) ∧
    (∀ jd, s.jobs jid = some jd → jd.done = true →
      (addChunk jid c s).jobs jid = some { jd with chunks := jd.chunks ++ [c] } ∧
      (markDone jid err s).jobs jid
        = some (if strTruthy err then
                  { jd with status := JobStatus.failed, error := err, done := true }
                else
                  { jd with status := JobStatus.completed, done := true })) := by
  constructor
  · intro h
    exact ⟨by simp [addChunk, h], by simp [markDone, h]⟩
  · intro jd hj _
    constructor
    · simp [addChunk, hj, updF_same]
    · by_cases ht : strTruthy err = true <;>
        simp [markDone, hj, updF_same, ht]

/-- C3 counterexample: a job is added, completed (terminal), and then a chunk
is appended anyway — the chunk list of the terminal job changes from `[]` to
`["x"]`, contradicting "once terminal is true the chunk list is immutable"
and "no chunk is appended". -/
theorem c3_counterexample :
    isDone "j1" (markDone "j1" none (addJob 0 ⟨"j1", "m", "p"⟩ qInit)) = true ∧
    getChunks "j1" (addChunk "j1" "x"
        (markDone "j1" none (addJob 0 ⟨"j1", "m", "p"⟩ qInit))) = ["x"] := by
  decide

/-- Witness for `c3_terminal_ops` at a concrete terminal job. -/
theorem c3_witness :
    (addChunk "j1" "x" (markDone "j1" none (addJob 0 ⟨"j1", "m", "p"⟩ qInit))).jobs "j1"
      = some ⟨JobStatus.completed, "m", "p", ["x"], true, none, 0⟩ := by
  have h := ((c3_terminal_ops "j1" "x" none
      (markDone "j1" none (addJob 0 ⟨"j1", "m", "p"⟩ qInit))).2
      ⟨JobStatus.completed, "m", "p", [], true, none, 0⟩ (by decide) (by decide)).1
  simpa using h

/-- C4 (corrected): every invocation of the done path rewrites the terminal
state.  On a known job, `mark_done` sets the runtime status to Failed iff its
error argument is truthy and to Completed otherwise — regardless of any
previously recorded terminal status — and the ledger update of the done
handler likewise rewrites the row status on every invocation.  Hence repeated
done calls with different error arguments flip Completed ↔ Failed, and the
ledger terminal status is not written exactly once. -/
theorem c4_done_overwrites (jid : String) (err : Option String) (s : QState)
    (jd : JobData) (h : s.jobs jid = some jd) (now : Nat) (row : DBJobRec) :
    getStatus jid (markDone jid err s)
        = some (if strTruthy err then JobStatus.failed else JobStatus.completed) ∧
    isDone jid (markDone jid err s) = true ∧
    (markJobDoneStatus now err (some row)).map (fun r => r.status)
        = some (if strTruthy err then "failed" else "completed") := by
  refine ⟨?_, ?_, ?_⟩ <;>
    by_cases ht : strTruthy err = true <;>
      simp [getStatus, isDone, markDone, markJobDoneStatus, h, updF_same, ht]

/-- C4 counterexample: a completed job transitions backwards to Failed when
the done endpoint is invoked a second time with an error. -/
theorem c4_counterexample :
    getStatus "j1" (markDone "j1" none (addJob 0 ⟨"j1", "m", "p"⟩ qInit))
        = some JobStatus.completed ∧
    getStatus "j1" (markDone "j1" (some "boom")
        (markDone "j1" none (addJob 0 ⟨"j1", "m", "p"⟩ qInit)))
        = some JobStatus.failed := by
  decide

/-- Witness for `c4_done_overwrites` at a concrete job and ledger row. -/
theorem c4_witness :
    getStatus "j1" (markDone "j1" (some "E") (addJob 0 ⟨"j1", "m", "p"⟩ qInit))
        = some (if strTruthy (some "E") then JobStatus.failed else JobStatus.completed) ∧
    isDone "j1" (markDone "j1" (some "E") (addJob 0 ⟨"j1", "m", "p"⟩ qInit)) = true ∧
    (markJobDoneStatus 5 (some "E")
        (some ⟨"j1", "pending", "m", none, none, none, none, none, some 0, none⟩)).map
        (fun r => r.status)
        = some (if strTruthy (some "E") then "failed" else "completed") :=
  c4_done_overwrites "j1" (some "E") (addJob 0 ⟨"j1", "m", "p"⟩ qInit)
    ⟨JobStatus.pending, "m", "p", [], false, none, 0⟩ (by decide) 5
    ⟨"j1", "pending", "m", none, none, none, none, none, some 0, none⟩

/-- Queue states reachable through the public `JobQueue` operations. -/
inductive Reach : QState → Prop where
  | init : Reach qInit
  | add (now : Nat) (job : Job) {s : QState} : Reach s → Reach (addJob now job s)
  | take {ms : List String} {s : QState} {r : Option Job × QState} :
      Reach s → getNextJob ms s = Except.ok r → Reach r.2
  | chunk (jid c : String) {s : QState} : Reach s → Reach (addChunk jid c s)
  | finish (jid : String) (err : Option String) {s : QState} :
      Reach s → Reach (markDone jid err s)

/-- Every job id sitting in some per-model FIFO has a runtime entry. -/
def PendingInv (s : QState) : Prop :=
  ∀ m jid, jid ∈ s.pending m → (s.jobs jid).isSome = true

theorem updF_some_isSome (f : String → Option JobData) (k x : String) (v : JobData)
    (h : (f x).isSome = true) : (updF f k (some v) x).isSome = true := by
  by_cases hx : x = k <;> simp [updF, hx, h]

theorem pendingInv_qInit : PendingInv qInit := by
  intro m jid hmem
  simp [qInit] at hmem

theorem pendingInv_addJob (now : Nat) (job : Job) (s : QState)
    (hs : PendingInv s) : PendingInv (addJob now job s) := by
  intro m jid hmem
  by_cases hm : m = job.model
  · subst hm
    rw [addJob] at hmem
    simp only [updF_same] at hmem
    rcases List.mem_append.mp hmem with hold | hnew
    · exact updF_some_isSome _ _ _ _ (hs job.model jid hold)
    · have : jid = job.job_id := by simpa using hnew
      subst this
      simp [addJob, updF_same]
  · rw [addJob] at hmem
    simp only [updF_other _ _ _ _ hm] at hmem
    exact updF_some_isSome _ _ _ _ (hs m jid hmem)

theorem pendingInv_addChunk (jid c : String) (s : QState)
    (hs : PendingInv s) : PendingInv (addChunk jid c s) := by
  intro m jid' hmem
  cases hj : s.jobs jid with
  | none =>
    simp only [addChunk, hj] at hmem ⊢
    exact hs m jid' hmem
  | some jd =>
    simp only [addChunk, hj] at hmem ⊢
    exact updF_some_isSome _ _ _ _ (hs m jid' hmem)

theorem pendingInv_markDone (jid : String) (err : Option String) (s : QState)
    (hs : PendingInv s) : PendingInv (markDone jid err s) := by
  intro m jid' hmem
  cases hj : s.jobs jid with
  | none =>
    simp only [markDone, hj] at hmem ⊢
    exact hs m jid' hmem
  | some jd =>
    simp only [markDone, hj] at hmem ⊢
    exact updF_some_isSome _ _ _ _ (hs m jid' hmem)

theorem getNextJob_ok_of_inv (s : QState) (hs : PendingInv s) :
    ∀ ms, ∃ r, getNextJob ms s = Except.ok r := by
  intro ms
  induction ms with
  | nil => exact ⟨(none, s), rfl⟩
  | cons m rest ih =>
    cases hp : s.pending m with
    | nil => simpa [getNextJob, hp] using ih
    | cons jid tl =>
      have hmem : jid ∈ s.pending m := by
        rw [hp]; exact List.mem_cons_self _ _
      have hsome := hs m jid hmem
      cases hj : s.jobs jid with
      | none => rw [hj] at hsome; simp at hsome
      | some jd =>
        exact ⟨(some ⟨jid, jd.model, jd.prompt⟩,
          { jobs := updF s.jobs jid (some { jd with status := JobStatus.in_progress }),
            pending := updF s.pending m tl }),
          by simp only [getNextJob, hp, hj]⟩

theorem pendingInv_getNextJob (s : QState) (hs : PendingInv s) :
    ∀ ms (r : Option Job × QState), getNextJob ms s = Except.ok r → PendingInv r.2 := by
  intro ms
  induction ms with
  | nil =>
    intro r h
    simp only [getNextJob] at h
    cases h
    exact hs
  | cons m rest ih =>
    intro r h
    cases hp : s.pending m with
    | nil =>
      simp only [getNextJob, hp] at h
      exact ih r h
    | cons jid tl =>
      simp only [getNextJob, hp] at h
      cases hj : s.jobs jid with
      | none => simp only [hj] at h; exact Except.noConfusion h
      | some jd =>
        simp only [hj, Except.ok.injEq] at h
        subst h
        dsimp only
        intro m' jid' hmem
        dsimp only at hmem
        by_cases hm : m' = m
        · subst hm
          simp only [updF_same] at hmem
          have : jid' ∈ s.pending m' := by
            rw [hp]; exact List.mem_cons_of_mem _ hmem
          exact updF_some_isSome _ _ _ _ (hs m' jid' this)
        · simp only [updF_other _ _ _ _ hm] at hmem
          exact updF_some_isSome _ _ _ _ (hs m' jid' hmem)

theorem reach_pendingInv {s : QState} (hs : Reach s) : PendingInv s := by
  induction hs with
  | init => exact pendingInv_qInit
  | add now job _ ih => exact pendingInv_addJob now job _ ih
  | take _ h ih => exact pendingInv_getNextJob _ ih _ _ h
  | chunk jid c _ ih => exact pendingInv_addChunk jid c _ ih
  | finish jid err _ ih => exact pendingInv_markDone jid err _ ih

theorem getNextJob_ok_some (ms : List String) (s : QState) (jb : Job) (s' : QState)
    (h : getNextJob ms s = Except.ok (some jb, s')) :
    ∃ jd, s.jobs jb.job_id = some jd ∧ jb.model = jd.model ∧ jb.prompt = jd.prompt := by
  induction ms with
  | nil => simp [getNextJob] at h
  | cons m rest ih =>
    cases hp : s.pending m with
    | nil =>
      simp only [getNextJob, hp] at h
      exact ih h
    | cons jid tl =>
      simp only [getNextJob, hp] at h
      cases hj : s.jobs jid with
      | none => simp only [hj] at h; exact Except.noConfusion h
      | some jd =>
        simp only [hj, Except.ok.injEq, Prod.mk.injEq, Option.some.injEq] at h
        obtain ⟨hjb, -⟩ := h
        subst hjb
        exact ⟨jd, hj, rfl, rfl⟩

/-- C9 (confirmed): in every reachable queue state, `get_next_job` never
fails on a missing `jobs` key (every pending job id has a runtime entry),
and any job it returns carries exactly the model and prompt stored in the
runtime map by `add_job`. -/
theorem c9_take_safe {s : QState} (hs : Reach s) (ms : List String) :
    (∃ r, getNextJob ms s = Except.ok r) ∧
    (∀ jb s', getNextJob ms s = Except.ok (some jb, s') →
      ∃ jd, s.jobs jb.job_id = some jd ∧ jb.model = jd.model ∧ jb.prompt = jd.prompt) :=
  ⟨getNextJob_ok_of_inv s (reach_pendingInv hs) ms,
   fun jb s' h => getNextJob_ok_some ms s jb s' h⟩

/-- Witness for `c9_take_safe`: after adding one job, polling for its model
succeeds (no `KeyError`). -/
theorem c9_witness :
    (getNextJob ["m"] (addJob 0 ⟨"j1", "m", "p"⟩ qInit)).toOption.isSome = true := by
  obtain ⟨r, hr⟩ :=
    (c9_take_safe (Reach.add 0 ⟨"j1", "m", "p"⟩ Reach.init) ["m"]).1
  rw [hr]
  rfl

/-- The `NodeRegistration` model (server.py lines 40-44). -/
structure NodeRegistration where
  node_id : String
  url : String
  models : List String
  concordium_address : Option String
  deriving DecidableEq, Repr

/-- The `NodeInfo` model (server.py lines 47-52); `last_seen` is a `Nat` tick. -/
structure NodeInfo where
  node_id : String
  url : String
  models : List String
  concordium_address : Option String
  last_seen : Nat
  deriving DecidableEq, Repr

/-- The `Registry` state (server.py lines 153-156).  A model key missing from
`model_to_nodes` and one mapped to `[]` behave identically everywhere in the
source, so the index is a total function defaulting to `[]`; the round-robin
cursor keeps the `Option` since the code tests key membership. -/
structure Registry where
  model_to_nodes : String → List NodeInfo
  nodes : String → Option NodeInfo
  round_robin_index : String → Option Nat

/-- One iteration of the model-index loop in `Registry.register_node`
(server.py lines 169-178): under key `m`, drop entries carrying this node id,
then append the fresh `NodeInfo`. -/
def addModelEntry (id : String) (info : NodeInfo) (f : String → List NodeInfo)
    (m : String) : String → List NodeInfo :=
  updF f m ((f m).filter (fun n => n.node_id != id) ++ [info])

/-- Method `Registry.register_node` (server.py lines 158-178): store the new
`NodeInfo` under the node id and run the index loop — which visits only the
models of the NEW registration. -/
def registerNode (now : Nat) (reg : NodeRegistration) (r : Registry) : Registry :=
  let node_info : NodeInfo :=
    ⟨reg.node_id, reg.url, reg.models, reg.concordium_address, now⟩
  { model_to_nodes := reg.models.foldl (addModelEntry reg.node_id node_info) r.model_to_nodes,
    nodes := updF r.nodes reg.node_id (some node_info),
    round_robin_index := r.round_robin_index }

/-- Method `Registry.get_node_for_model` (server.py lines 180-191): none when no
node serves the model, otherwise return the entry at the cursor (missing
cursor reads as 0, exactly as the code first stores 0) and advance the cursor
modulo the list length. -/
def getNodeForModel (model : String) (r : Registry) : Option NodeInfo × Registry :=
  let ns := r.model_to_nodes model
  if ns.isEmpty then (none, r)
  else
    let c := (r.round_robin_index model).getD 0
    let index := c % ns.length
    (ns.get? index,
     { r with
        round_robin_index :=
          updF r.round_robin_index model (some ((index + 1) % ns.length)) })

theorem foldl_addModelEntry_not_mem (id : String) (info : NodeInfo)
    (L : List String) :
    ∀ (f : String → List NodeInfo) (m : String), m ∉ L →
      (L.foldl (addModelEntry id info) f) m = f m := by
  induction L with
  | nil => intro f m _; rfl
  | cons a t ih =>
    intro f m hm
    have hma : m ≠ a := fun h => hm (h ▸ List.mem_cons_self a t)
    have hmt : m ∉ t := fun h => hm (List.mem_cons_of_mem a h)
    simp only [List.foldl_cons]
    rw [ih _ m hmt]
    exact updF_other _ _ _ _ hma

theorem foldl_addModelEntry_count (id : String) (info : NodeInfo)
    (hinfo : (info.node_id == id) = true) (L : List String) :
    ∀ (f : String → List NodeInfo) (m : String), m ∈ L →
      ((L.foldl (addModelEntry id info) f) m).countP (fun n => n.node_id == id) = 1 := by
  induction L with
  | nil => intro f m hm; simp at hm
  | cons a t ih =>
    intro f m hm
    by_cases hmt : m ∈ t
    · simpa using ih (addModelEntry id info f a) m hmt
    · have hma : m = a := by
        rcases List.mem_cons.mp hm with h | h
        · exact h
        · exact absurd h hmt
      subst hma
      simp only [List.foldl_cons]
      rw [foldl_addModelEntry_not_mem id info t _ m hmt]
      rw [addModelEntry, updF_same, List.countP_append]
      have hz : ((f m).filter (fun n => n.node_id != id)).countP
          (fun n => n.node_id == id) = 0 := by
        rw [List.countP_eq_zero]
        intro x hx
        have hne := (List.mem_filter.mp hx).2
        simp only [bne_iff_ne, ne_eq] at hne
        simp only [beq_iff_eq]
        exact hne
      rw [hz]
      simp [List.countP_cons, hinfo]

/-- C2 (corrected): after `register(node_id, url, models, payout_address)`
the node appears exactly once in `model_to_nodes[m]` for every `m` of the
NEW models list; but the index entries under models that only occurred in a
prior registration are left untouched, so a stale entry for the node
persists there (it is not removed, contrary to the claim). -/
theorem c2_register_models (now : Nat) (reg : NodeRegistration) (r : Registry) :
    (∀ m, m ∈ reg.models →
      ((registerNode now reg r).model_to_nodes m).countP
        (fun n => n.node_id == reg.node_id) = 1) ∧
    (∀ m, m ∉ reg.models →
      (registerNode now reg r).model_to_nodes m = r.model_to_nodes m) := by
  constructor
  · intro m hm
    exact foldl_addModelEntry_count reg.node_id _ (by simp) reg.models _ m hm
  · intro m hm
    exact foldl_addModelEntry_not_mem reg.node_id _ reg.models _ m hm

/-- The empty registry (server.py `Registry.__init__`, lines 153-156). -/
def rEmpty : Registry := ⟨fun _ => [], fun _ => none, fun _ => none⟩

/-- Registry after node W registers with ["a","b"] and re-registers with
["b","c"] (the scenario named by the claim). -/
def rStale : Registry :=
  registerNode 1 ⟨"W", "u", ["b", "c"], none⟩
    (registerNode 0 ⟨"W", "u", ["a", "b"], none⟩ rEmpty)

/-- C2 counterexample: after W re-registers with ["b","c"], the index entry
`model_to_nodes["a"]` still contains node W (with its stale record), even
though the live registration of W no longer lists model "a". -/
theorem c2_counterexample :
    (rStale.model_to_nodes "a").any (fun n => n.node_id == "W") = true ∧
    (rStale.nodes "W").map (fun n => n.models) = some ["b", "c"] := by
  decide

/-- Witness for `c2_register_models` on the same scenario: under "b", a model
of the new registration, node W appears exactly once. -/
theorem c2_witness :
    ((registerNode 1 ⟨"W", "u", ["b", "c"], none⟩
        (registerNode 0 ⟨"W", "u", ["a", "b"], none⟩ rEmpty)).model_to_nodes "b").countP
      (fun n => n.node_id == "W") = 1 :=
  (c2_register_models 1 ⟨"W", "u", ["b", "c"], none⟩
    (registerNode 0 ⟨"W", "u", ["a", "b"], none⟩ rEmpty)).1 "b" (by decide)

/-- Runs `k` consecutive calls to `get_node_for_model` for fixed `model`, with the
registry threaded through (only the round-robin cursor changes). -/
def pickSeq (model : String) : Nat → Registry → List (Option NodeInfo) × Registry
  | 0, r => ([], r)
  | k + 1, r =>
    let p := getNodeForModel model r
    let rest := pickSeq model k p.2
    (p.1 :: rest.1, rest.2)

theorem getNodeForModel_eq (model : String) (r : Registry) (ns : List NodeInfo)
    (h : r.model_to_nodes model = ns) (hne : ns ≠ []) :
    getNodeForModel model r
      = (ns.get? (((r.round_robin_index model).getD 0) % ns.length),
         { r with
            round_robin_index :=
              updF r.round_robin_index model
                (some ((((r.round_robin_index model).getD 0) % ns.length + 1) % ns.length)) }) := by
  have hemp : ns.isEmpty = false := by
    cases ns with
    | nil => exact absurd rfl hne
    | cons a t => rfl
  simp [getNodeForModel, h, hemp]

/-- Closed form of the cursor walk: starting at reduced cursor `i`, the
successive picks read indices `i, i+1, ...` modulo the list length. -/
def rrPicks (ns : List NodeInfo) (i k : Nat) : List (Option NodeInfo) :=
  (List.range k).map (fun t => ns.get? ((i + t) % ns.length))

theorem rrPicks_succ (ns : List NodeInfo) (i k : Nat) (hiN : i < ns.length) :
    rrPicks ns i (k + 1) = ns.get? i :: rrPicks ns ((i + 1) % ns.length) k := by
  unfold rrPicks
  rw [List.range_succ_eq_map]
  simp only [List.map_cons, List.map_map]
  refine congrArg₂ List.cons ?_ ?_
  · rw [Nat.add_zero, Nat.mod_eq_of_lt hiN]
  · apply List.map_congr_left
    intro t _
    simp only [Function.comp]
    rw [Nat.mod_add_mod]
    congr 2
    omega

theorem pickSeq_closed (model : String) (ns : List NodeInfo) (hne : ns ≠ []) :
    ∀ (k : Nat) (r : Registry), r.model_to_nodes model = ns →
      ∀ i, ((r.round_robin_index model).getD 0) % ns.length = i →
        (pickSeq model k r).1 = rrPicks ns i k := by
  intro k
  induction k with
  | zero => intro r _ i _; simp [pickSeq, rrPicks]
  | succ k ih =>
    intro r h i hi
    have hN : 0 < ns.length := List.length_pos.mpr hne
    have hiN : i < ns.length := hi ▸ Nat.mod_lt _ hN
    have hstep := getNodeForModel_eq model r ns h hne
    rw [hi] at hstep
    simp only [pickSeq, hstep]
    have htail := ih { r with
        round_robin_index :=
          updF r.round_robin_index model (some ((i + 1) % ns.length)) }
      h ((i + 1) % ns.length)
      (by
        simp only [updF_same, Option.getD_some]
        exact Nat.mod_mod_of_dvd _ dvd_rfl)
    rw [htail, rrPicks_succ ns i k hiN]

theorem range_map_getq {α : Type} (l : List α) :
    (List.range l.length).map (fun t => l.get? t) = l.map some := by
  induction l with
  | nil => rfl
  | cons a t ih =>
    rw [List.length_cons, List.range_succ_eq_map]
    simp only [List.map_cons, List.map_map]
    refine congrArg₂ List.cons rfl ?_
    have hcomp : (List.range t.length).map ((fun n => (a :: t).get? n) ∘ Nat.succ)
        = (List.range t.length).map (fun n => t.get? n) := by
      apply List.map_congr_left
      intro n _
      simp [Function.comp, List.get?_cons_succ]
    rw [hcomp, ih]

theorem rrPicks_perm (ns : List NodeInfo) (i : Nat) :
    (rrPicks ns i ns.length).Perm (ns.map some) := by
  have hlen := List.length_rotate ns i
  have h1 : rrPicks ns i ns.length
      = (List.range ns.length).map (fun t => (ns.rotate i).get? t) := by
    unfold rrPicks
    apply List.map_congr_left
    intro t ht
    rw [List.get?_rotate (List.mem_range.mp ht), Nat.add_comm t i]
  rw [h1, ← hlen, range_map_getq (ns.rotate i)]
  exact (List.rotate_perm ns i).map some

/-- C6 (confirmed): for a model served by the non-empty node list `ns`, with
no membership change, `ns.length` consecutive `get_node_for_model` calls
return each entry exactly once (the result multiset is exactly `ns`), and
`2 * ns.length` consecutive calls return each entry exactly twice — from any
starting cursor value. -/
theorem c6_round_robin_fair (model : String) (r : Registry) (ns : List NodeInfo)
    (h : r.model_to_nodes model = ns) (hne : ns ≠ []) :
    (pickSeq model ns.length r).1.Perm (ns.map some) ∧
    (pickSeq model (2 * ns.length) r).1.Perm ((ns ++ ns).map some) := by
  have hN : 0 < ns.length := List.length_pos.mpr hne
  set i := ((r.round_robin_index model).getD 0) % ns.length with hi
  have hiN : i < ns.length := Nat.mod_lt _ hN
  constructor
  · rw [pickSeq_closed model ns hne ns.length r h i hi.symm]
    exact rrPicks_perm ns i
  · rw [pickSeq_closed model ns hne (2 * ns.length) r h i hi.symm]
    have hsplit : rrPicks ns i (2 * ns.length)
        = rrPicks ns i ns.length ++ rrPicks ns i ns.length := by
      unfold rrPicks
      rw [two_mul, List.range_add, List.map_append, List.map_map]
      refine congrArg₂ (· ++ ·) rfl ?_
      apply List.map_congr_left
      intro t _
      simp only [Function.comp]
      congr 1
      rw [show i + (ns.length + t) = (i + t) + ns.length by omega, Nat.add_mod_right]
    rw [hsplit, List.map_append]
    exact (rrPicks_perm ns i).append (rrPicks_perm ns i)

/-- Worker nodes W1, W2 both serving model "m" (for the witness). -/
def nW1 : NodeInfo := ⟨"W1", "u1", ["m"], none, 0⟩

def nW2 : NodeInfo := ⟨"W2", "u2", ["m"], none, 0⟩

def rPair : Registry :=
  ⟨fun mdl => if mdl = "m" then [nW1, nW2] else [], fun _ => none, fun _ => none⟩

/-- Witness for `c6_round_robin_fair`: two nodes, two picks, each node
returned exactly once. -/
theorem c6_witness :
    (pickSeq "m" 2 rPair).1.Perm ([nW1, nW2].map some) :=
  (c6_round_robin_fair "m" rPair [nW1, nW2] (by decide) (by decide)).1

/-- The `InferenceRequest` model (server.py lines 55-57). -/
structure InferenceRequest where
  model : String
  prompt : String
  deriving DecidableEq, Repr

/-- The SSE push selection inside `inference` (server.py lines 449-457): walk
`sse_connections` in insertion order (`sse` is the ordered list of connected
node ids) and stop at the FIRST node that is registered and advertises the
requested model.  The loop `break`s after one push. -/
def selectPushTarget (model : String) (sse : List String)
    (nodes : String → Option NodeInfo) : Option String :=
  match sse with
  | [] => none
  | nid :: rest =>
    match nodes nid with
    | some ni =>
      if ni.models.contains model then some nid
      else selectPushTarget model rest nodes
    | none => selectPushTarget model rest nodes

/-- The dispatch segment of `inference` (server.py lines 446-460):
`job_queue.add_job(job)` runs unconditionally, then the push attempt; on a
push the runtime status is set InProgress in place.  Nothing removes the job
from the pending FIFO.  Returns the new queue state and the pushed-to node
id, if any. -/
def inferenceDispatch (now : Nat) (job : Job) (sse : List String)
    (nodes : String → Option NodeInfo) (q : QState) : QState × Option String :=
  let q1 := addJob now job q
  match selectPushTarget job.model sse nodes with
  | some nid =>
    let q2 := match q1.jobs job.job_id with
      | some jd =>
        { q1 with
            jobs := updF q1.jobs job.job_id
              (some { jd with status := JobStatus.in_progress }) }
      | none => q1
    (q2, some nid)
  | none => (q1, none)

/-- Result of one `/inference` call (server.py lines 423-460, up to the
relay). -/
structure InfResult where
  reg : Registry
  q : QState
  db : String → Option DBJobRec
  pushedTo : Option String
  jobId : String

/-- The `/inference` handler before streaming (server.py lines 423-460):
availability check via `get_node_for_model` (which advances the round-robin
cursor), job id from the timestamp, ledger row with status "pending", then
the dispatch segment.  `none` models the HTTP 404. -/
def inferenceCall (now : Nat) (req : InferenceRequest) (sse : List String)
    (reg : Registry) (q : QState) (db : String → Option DBJobRec) :
    Option InfResult :=
  let p := getNodeForModel req.model reg
  match p.1 with
  | none => none
  | some _ =>
    let jobId := "job-" ++ toString now
    let job : Job := ⟨jobId, req.model, req.prompt⟩
    let db' := updF db jobId
      (some ⟨jobId, "pending", req.model, none, none, none, none, none, some now, none⟩)
    let d := inferenceDispatch now job sse p.2.nodes q
    some ⟨p.2, d.1, db', d.2, jobId⟩

/-- C1 (corrected): the dispatcher records every job in the per-model pending
FIFO — `add_job` runs before the push attempt and the push path never removes
the id — so a pushed job additionally stays queued for polling, whatever the
push outcome. -/
theorem c1_pushed_job_still_pending (now : Nat) (job : Job) (sse : List String)
    (nodes : String → Option NodeInfo) (q : QState) :
    ((inferenceDispatch now job sse nodes q).1).pending job.model
      = q.pending job.model ++ [job.job_id] := by
  unfold inferenceDispatch
  cases selectPushTarget job.model sse nodes with
  | none => simp [addJob, updF_same]
  | some nid =>
    cases hq : (addJob now job q).jobs job.job_id with
    | none => simp [hq, addJob, updF_same]
    | some jd => simp [hq, addJob, updF_same]

/-- One registered node W serving model "m", connected by SSE. -/
def rOneW : Registry := registerNode 0 ⟨"W", "u", ["m"], none⟩ rEmpty

/-- Outcome projection for the C1 scenario: push target, pending FIFO of
model "m" after dispatch, and the job id a subsequent poll dequeues. -/
def c1run : Option (Option String × List String × Option (Option String)) :=
  match inferenceCall 0 ⟨"m", "p"⟩ ["W"] rOneW qInit (fun _ => none) with
  | none => none
  | some r =>
    some (r.pushedTo, r.q.pending "m",
      (getNextJob ["m"] r.q).toOption.map (fun p => p.1.map (fun jb => jb.job_id)))

/-- C1 counterexample: with worker W connected via SSE and serving "m", an
`/inference` call pushes the job to W AND leaves it in the pending FIFO for
"m", and a subsequent `get_next_job ["m"]` dequeues the very same job
again — the two delivery paths are not mutually exclusive. -/
theorem c1_counterexample :
    c1run = some (some "W", ["job-0"], some (some "job-0")) := by
  decide

/-- C5 (corrected): the push target of the dispatch segment is always the
FIRST entry of the connection list whose registered record advertises the
model — a pure function of the connection order and the registry, not of the
queue state — so consecutive `/inference` calls with unchanged connections
all push to that same worker; there is no round-robin over the connected
subset. -/
theorem c5_first_connected (now : Nat) (job : Job) (sse : List String)
    (nodes : String → Option NodeInfo) (q : QState) :
    (inferenceDispatch now job sse nodes q).2
      = sse.find? (fun nid =>
          match nodes nid with
          | some ni => ni.models.contains job.model
          | none => false) := by
  have hsel : ∀ l : List String, selectPushTarget job.model l nodes
      = l.find? (fun nid =>
          match nodes nid with
          | some ni => ni.models.contains job.model
          | none => false) := by
    intro l
    induction l with
    | nil => rfl
    | cons nid rest ih =>
      cases hn : nodes nid with
      | none => simp [selectPushTarget, List.find?, hn, ih]
      | some ni =>
        by_cases hc : job.model ∈ ni.models
        · simp [selectPushTarget, List.find?, hn, hc]
        · simp [selectPushTarget, List.find?, hn, hc, ih]
  unfold inferenceDispatch
  rw [← hsel sse]
  cases selectPushTarget job.model sse nodes with
  | none => rfl
  | some nid =>
    cases (addJob now job q).jobs job.job_id with
    | none => rfl
    | some jd => rfl

/-- Two registered nodes W1, W2 serving "m" (C5 scenario). -/
def rTwoW : Registry :=
  registerNode 1 ⟨"W2", "u2", ["m"], none⟩
    (registerNode 0 ⟨"W1", "u1", ["m"], none⟩ rEmpty)

/-- Push targets of two consecutive `/inference` calls with W1 and W2 both
connected (insertion order W1, W2) and both serving "m". -/
def c5run : Option (Option String × Option String) :=
  match inferenceCall 0 ⟨"m", "p"⟩ ["W1", "W2"] rTwoW qInit (fun _ => none) with
  | none => none
  | some r1 =>
    match inferenceCall 1 ⟨"m", "p"⟩ ["W1", "W2"] r1.reg r1.q r1.db with
    | none => none
    | some r2 => some (r1.pushedTo, r2.pushedTo)

/-- C5 counterexample: both consecutive calls push to W1; the second is not
pushed to W2, contradicting the claimed W1, W2 alternation. -/
theorem c5_counterexample :
    c5run = some (some "W1", some "W1") ∧
    c5run ≠ some (some "W1", some "W2") := by
  decide

/-- Constant of server.py line 32. -/
def MAX_JOB_TIMEOUT : Nat := 300

/-- Constant of server.py line 33: `int(1 / STREAM_CHECK_INTERVAL)` with
`STREAM_CHECK_INTERVAL = 0.1`. -/
def CHECKS_PER_SECOND : Nat := 10

/-- The drain loop breaks once `timeout_count` exceeds this bound
(server.py line 476). -/
def timeoutLimit : Nat := MAX_JOB_TIMEOUT * CHECKS_PER_SECOND

/-- The string `json.dumps({"error": "Job timeout", "done": True}) + "\n"`
(server.py lines 477-480). -/
def timeoutErrMsg : String := "\x7b\"error\": \"Job timeout\", \"done\": true\x7d\n"

/-- Holds when `a` is an initial segment of `b` (chunk lists only ever grow by
appending, so successive snapshots of the chunk list of a job extend earlier
ones). -/
def GrowsTo {α : Type} (a b : List α) : Prop := ∃ u, a ++ u = b

theorem growsTo_rfl {α : Type} (a : List α) : GrowsTo a a :=
  ⟨[], List.append_nil a⟩

theorem GrowsTo.trans {α : Type} {a b c : List α}
    (h1 : GrowsTo a b) (h2 : GrowsTo b c) : GrowsTo a c := by
  obtain ⟨u, hu⟩ := h1
  obtain ⟨v, hv⟩ := h2
  exact ⟨u ++ v, by rw [← List.append_assoc, hu, hv]⟩

theorem GrowsTo.length_le {α : Type} {a b : List α} (h : GrowsTo a b) :
    a.length ≤ b.length := by
  obtain ⟨u, hu⟩ := h
  rw [← hu, List.length_append]
  omega

theorem growsTo_drop_append {α : Type} {a b : List α} (h : GrowsTo a b)
    {last : Nat} (hl : last ≤ a.length) :
    a.drop last ++ b.drop a.length = b.drop last := by
  obtain ⟨u, hu⟩ := h
  subst hu
  rw [List.drop_left, List.drop_append_eq_append_drop, Nat.sub_eq_zero_of_le hl,
    List.drop_zero]

/-- The `stream_chunks` drain loop of the Relay (server.py lines 462-486),
parametrised by the observation trace `st`: `st t` is the pair
(`get_chunks(job_id)`, `is_done(job_id)`) that the coroutine would read at
its `t`-th suspension point.  Under asyncio, the body between two `await
asyncio.sleep` calls runs atomically, so `is_done`, the in-loop `get_chunks`,
and the post-loop `get_chunks` of one iteration all read the same state;
`t` advances by one at each sleep.  `last` is `last_chunk_index`, `count` is
`timeout_count`, and `fuel` is a structural bound never reached before the
`count` break. -/
def relayLoop (st : Nat → List String × Bool) :
    Nat → Nat → Nat → Nat → List String
  | 0, _, _, _ => []
  | fuel + 1, t, last, count =>
    let cs := (st t).1
    if (st t).2 then
      cs.drop last
    else
      let emitted := cs.drop last
      let last' := if last < cs.length then cs.length else last
      let count' := count + 1
      if timeoutLimit < count' then
        emitted ++ timeoutErrMsg :: ((st (t + 1)).1.drop last')
      else
        emitted ++ relayLoop st fuel (t + 1) last' count'

/-- The full `stream_chunks` body: cursor 0, counter 0, fuel larger than the
maximal number of loop iterations (`timeoutLimit + 1`). -/
def streamChunks (st : Nat → List String × Bool) : List String :=
  relayLoop st (timeoutLimit + 2) 0 0 0

theorem relayLoop_done (st : Nat → List String × Bool) (F : List String)
    (hmono : ∀ t, GrowsTo (st t).1 (st (t + 1)).1)
    (hfin : ∀ t, (st t).2 = true → (st t).1 = F)
    (hpre : ∀ t, GrowsTo (st t).1 F) :
    ∀ (rem t last count fuel : Nat), (st (t + rem)).2 = true →
      count + rem ≤ timeoutLimit → rem < fuel → last ≤ (st t).1.length →
      relayLoop st fuel t last count = F.drop last := by
  intro rem
  induction rem with
  | zero =>
    intro t last count fuel hdone _ hfuel _
    obtain ⟨f, rfl⟩ : ∃ f, fuel = f + 1 := ⟨fuel - 1, by omega⟩
    rw [Nat.add_zero] at hdone
    rw [relayLoop]
    simp only [hdone, if_true]
    rw [hfin t hdone]
  | succ rem ih =>
    intro t last count fuel hdone hcount hfuel hlast
    obtain ⟨f, rfl⟩ : ∃ f, fuel = f + 1 := ⟨fuel - 1, by omega⟩
    rw [relayLoop]
    cases hb : (st t).2 with
    | true =>
      simp only [hb, if_true]
      rw [hfin t hb]
    | false =>
      simp only [hb, if_false, Bool.false_eq_true]
      have hnb : ¬ (timeoutLimit < count + 1) := by omega
      simp only [hnb, if_false]
      have hlast' : (if last < (st t).1.length then (st t).1.length else last)
          = (st t).1.length := by
        rcases Nat.lt_or_ge last (st t).1.length with h9 | h9
        · rw [if_pos h9]
        · rw [if_neg (by omega)]
          omega
      rw [hlast']
      have hrec := ih (t + 1) ((st t).1.length) (count + 1) f
        (by rw [show t + 1 + rem = t + (rem + 1) from by omega]; exact hdone)
        (by omega) (by omega) (hmono t).length_le
      rw [hrec]
      exact growsTo_drop_append (hpre t) hlast

/-- C7 (confirmed): if the worker appends chunks only before posting done
(snapshots grow monotonically, and once the terminal flag is set the chunk
list equals the final list `F`), and the terminal flag is observed within the
timeout budget of the relay, then the relay emits a response body that is exactly `F`: every
appended chunk is emitted exactly once, in append order, with no
reordering. -/
theorem c7_relay_order (st : Nat → List String × Bool) (F : List String)
    (T : Nat)
    (hmono : ∀ t, GrowsTo (st t).1 (st (t + 1)).1)
    (hpre : ∀ t, GrowsTo (st t).1 F)
    (hfin : ∀ t, (st t).2 = true → (st t).1 = F)
    (hdone : (st T).2 = true) (hT : T ≤ timeoutLimit) :
    streamChunks st = F := by
  have h := relayLoop_done st F hmono hfin hpre T 0 0 0 (timeoutLimit + 2)
    (by simpa using hdone) (by omega) (by omega) (by omega)
  simpa using h

/-- Observation trace for the C7 witness: one chunk visible at tick 0, the
full list ["a", "b"] and the terminal flag from tick 1 on. -/
def wSt : Nat → List String × Bool
  | 0 => (["a"], false)
  | _ + 1 => (["a", "b"], true)

/-- Witness for `c7_relay_order`: the relay emits exactly ["a", "b"]. -/
theorem c7_witness : streamChunks wSt = ["a", "b"] := by
  apply c7_relay_order wSt ["a", "b"] 1
  · intro t
    cases t with
    | zero => exact ⟨["b"], rfl⟩
    | succ n => exact growsTo_rfl _
  · intro t
    cases t with
    | zero => exact ⟨["b"], rfl⟩
    | succ n => exact growsTo_rfl _
  · intro t ht
    cases t with
    | zero => simp [wSt] at ht
    | succ n => rfl
  · rfl
  · decide

theorem relayLoop_timeout (st : Nat → List String × Bool)
    (hmono : ∀ t, GrowsTo (st t).1 (st (t + 1)).1) :
    ∀ (rem t last count fuel : Nat),
      (∀ u, u < t + rem → (st u).2 = false) →
      count + rem = timeoutLimit + 1 → 0 < rem → rem ≤ fuel →
      last ≤ (st t).1.length →
      relayLoop st fuel t last count
        = (st (t + rem - 1)).1.drop last
            ++ timeoutErrMsg :: ((st (t + rem)).1.drop (st (t + rem - 1)).1.length) := by
  have hchain : ∀ a b, a ≤ b → GrowsTo (st a).1 (st b).1 := by
    intro a b hab
    induction b with
    | zero =>
      have : a = 0 := by omega
      subst this
      exact growsTo_rfl _
    | succ b ihb =>
      rcases Nat.lt_or_ge a (b + 1) with h | h
      · exact (ihb (by omega)).trans (hmono b)
      · have : a = b + 1 := by omega
        subst this
        exact growsTo_rfl _
  intro rem
  induction rem with
  | zero => intro _ _ _ _ _ _ h; omega
  | succ rem ih =>
    intro t last count fuel hnd hcount _ hfuel hlast
    obtain ⟨f, rfl⟩ : ∃ f, fuel = f + 1 := ⟨fuel - 1, by omega⟩
    rw [relayLoop]
    have hb : (st t).2 = false := hnd t (by omega)
    simp only [hb, if_false, Bool.false_eq_true]
    have hlast' : (if last < (st t).1.length then (st t).1.length else last)
        = (st t).1.length := by
      rcases Nat.lt_or_ge last (st t).1.length with h9 | h9
      · rw [if_pos h9]
      · rw [if_neg (by omega)]
        omega
    rw [hlast']
    cases rem with
    | zero =>
      have hbreak : timeoutLimit < count + 1 := by omega
      simp only [hbreak, if_true]
      rfl
    | succ r =>
      have hnobreak : ¬ (timeoutLimit < count + 1) := by omega
      simp only [hnobreak, if_false]
      have hrec := ih (t + 1) ((st t).1.length) (count + 1) f
        (by intro u hu; exact hnd u (by omega))
        (by omega) (by omega) (by omega) ((hmono t).length_le)
      have e1 : t + 1 + (r + 1) - 1 = t + r + 1 := by omega
      have e2 : t + 1 + (r + 1) = t + r + 2 := by omega
      rw [e1, e2] at hrec
      have e3 : t + (r + 1 + 1) - 1 = t + r + 1 := by omega
      have e4 : t + (r + 1 + 1) = t + r + 2 := by omega
      rw [e3, e4, hrec, ← List.append_assoc,
        growsTo_drop_append (hchain t (t + r + 1) (by omega)) hlast]

/-- C8 (corrected): when the terminal flag never arrives within the
timeout budget of the relay, the relay emits everything drained during the loop, then the
timeout error chunk — and then ALSO any chunks that arrived during the final
sleep interval: the post-break drain runs after the error chunk, so the error
chunk is the final chunk only when nothing arrived in that last interval.
The relay itself only reads the job state (its embedding has no write access
to `QState`), so the runtime entry is left as-is. -/
theorem c8_timeout_tail (st : Nat → List String × Bool)
    (hmono : ∀ t, GrowsTo (st t).1 (st (t + 1)).1)
    (hnd : ∀ u, u ≤ timeoutLimit → (st u).2 = false) :
    streamChunks st
      = (st timeoutLimit).1
          ++ timeoutErrMsg
            :: ((st (timeoutLimit + 1)).1.drop (st timeoutLimit).1.length) := by
  have h := relayLoop_timeout st hmono (timeoutLimit + 1) 0 0 0 (timeoutLimit + 2)
    (by intro u hu; exact hnd u (by omega))
    (by omega) (by omega) (by omega) (by omega)
  have e1 : 0 + (timeoutLimit + 1) - 1 = timeoutLimit := by omega
  have e2 : 0 + (timeoutLimit + 1) = timeoutLimit + 1 := by omega
  rw [e1, e2] at h
  simpa [streamChunks] using h

/-- Observation trace of a silent worker: no chunk, never done. -/
def stSilent : Nat → List String × Bool := fun _ => ([], false)

/-- Witness for `c8_timeout_tail`: with a silent worker the whole response is
the single timeout error chunk. -/
theorem c8_witness : streamChunks stSilent = [timeoutErrMsg] := by
  have h := c8_timeout_tail stSilent (fun _ => growsTo_rfl _) (fun _ _ => rfl)
  simpa using h

/-- Observation trace where one chunk arrives exactly in the final relay
sleep interval, and the job never terminates. -/
def stLate : Nat → List String × Bool :=
  fun t => if t ≤ timeoutLimit then ([], false) else (["late"], false)

/-- C8 counterexample: the timeout error chunk is emitted but is NOT the
final chunk of the response — the chunk that arrived during the last sleep
interval is drained and emitted after it. -/
theorem c8_counterexample :
    timeoutErrMsg ∈ streamChunks stLate ∧
    (streamChunks stLate).getLast? = some "late" ∧
    "late" ≠ timeoutErrMsg := by
  have hmono : ∀ t, GrowsTo (stLate t).1 (stLate (t + 1)).1 := by
    intro t
    by_cases h1 : t + 1 ≤ timeoutLimit
    · have h0 : t ≤ timeoutLimit := by omega
      simp only [stLate, if_pos h0, if_pos h1]
      exact growsTo_rfl _
    · by_cases h0 : t ≤ timeoutLimit
      · simp only [stLate, if_pos h0, if_neg h1]
        exact ⟨["late"], rfl⟩
      · simp only [stLate, if_neg h0, if_neg h1]
        exact growsTo_rfl _
  have hval : streamChunks stLate = [timeoutErrMsg, "late"] := by
    have h := relayLoop_timeout stLate hmono (timeoutLimit + 1) 0 0 0
      (timeoutLimit + 2)
      (by
        intro u hu
        unfold stLate
        split <;> rfl)
      (by omega) (by omega) (by omega) (by omega)
    have e1 : 0 + (timeoutLimit + 1) - 1 = timeoutLimit := by omega
    have e2 : 0 + (timeoutLimit + 1) = timeoutLimit + 1 := by omega
    rw [e1, e2] at h
    have v1 : (stLate timeoutLimit).1 = [] := by
      simp [stLate]
    have v2 : (stLate (timeoutLimit + 1)).1 = ["late"] := by
      simp only [stLate]
      rw [if_neg (by omega)]
    rw [v1, v2] at h
    simpa [streamChunks] using h
  rw [hval]
  refine ⟨by simp, by simp, by decide⟩

/-- Python truthiness of an `Optional[int]`: `None` and `0` are falsy. -/
def intTruthy : Option Int → Bool
  | none => false
  | some n => n != 0

/-- The derived payment block of `GET /jobs/{job_id}` (server.py lines
503-512). -/
structure PaymentInfo where
  amount_ccd : Rat
  recipient_address : Option String
  recipient_node : Option String
  deriving DecidableEq, Repr

/-- The response of `GET /jobs/{job_id}` for an existing ledger row
(server.py lines 495-528): `token_counts` is the triple only when
`total_tokens` is truthy (`if db_job.total_tokens else None`), and the
payment block exists only when both `total_tokens` and `node_address` are
truthy, with `amount_ccd = total_tokens * price_per_token`
(`price_per_token` from config, default 0.0001; exact `Rat` arithmetic
stands in for the Python float expression).  Timestamp echo fields are
omitted. -/
structure JobView where
  job_id : String
  status : String
  model : String
  node_id : Option String
  node_address : Option String
  token_counts : Option (Option Int × Option Int × Option Int)
  payment : Option PaymentInfo
  deriving DecidableEq, Repr

def getJobView (price_per_token : Rat) (j : DBJobRec) : JobView :=
  let payment_info : Option PaymentInfo :=
    if intTruthy j.total_tokens && strTruthy j.node_address then
      some ⟨((j.total_tokens.getD 0 : Int) : Rat) * price_per_token,
            j.node_address, j.node_id⟩
    else none
  { job_id := j.job_id, status := j.status, model := j.model,
    node_id := j.node_id, node_address := j.node_address,
    token_counts :=
      if intTruthy j.total_tokens then
        some (j.prompt_tokens, j.completion_tokens, j.total_tokens)
      else none,
    payment := payment_info }

/-- C10 (confirmed): whenever `total_tokens` is null or 0, the job view has
`token_counts = none` and no payment block (even if the other token fields
and the payout address are recorded); a present payment block implies a
non-null (indeed non-empty) payout address and a non-null, non-zero
`total_tokens`, and its amount equals `total_tokens * price_per_token`. -/
theorem c10_job_view (price : Rat) (j : DBJobRec) :
    ((j.total_tokens = none ∨ j.total_tokens = some 0) →
      (getJobView price j).token_counts = none ∧
      (getJobView price j).payment = none) ∧
    (∀ p, (getJobView price j).payment = some p →
      (∃ a, j.node_address = some a ∧ a ≠ "") ∧
      (∃ n, j.total_tokens = some n ∧ n ≠ 0 ∧
        p.amount_ccd = (n : Rat) * price)) := by
  constructor
  · intro h
    have ht : intTruthy j.total_tokens = false := by
      rcases h with h | h <;> simp [intTruthy, h]
    simp [getJobView, ht]
  · intro p hp
    simp only [getJobView] at hp
    by_cases hc : (intTruthy j.total_tokens && strTruthy j.node_address) = true
    · rw [if_pos hc] at hp
      rw [Bool.and_eq_true] at hc
      obtain ⟨hti, hsi⟩ := hc
      cases htot : j.total_tokens with
      | none => rw [htot] at hti; simp [intTruthy] at hti
      | some n =>
        cases haddr : j.node_address with
        | none => rw [haddr] at hsi; simp [strTruthy] at hsi
        | some a =>
          rw [htot] at hti
          rw [haddr] at hsi
          simp only [intTruthy, bne_iff_ne, ne_eq] at hti
          simp only [strTruthy, bne_iff_ne, ne_eq] at hsi
          injection hp with hp1
          refine ⟨⟨a, rfl, hsi⟩, n, rfl, hti, ?_⟩
          rw [← hp1]
          simp [htot]
    · rw [if_neg hc] at hp
      exact absurd hp (by simp)

/-- Witness for `c10_job_view`: a completed job with recorded prompt and
completion counts, a payout address, but `total_tokens = 0`, shows neither
token counts nor a payment block. -/
theorem c10_witness :
    (getJobView 1 ⟨"j", "completed", "m", some "W", some "addr",
        some 5, some 1, some 0, none, some 3⟩).token_counts = none ∧
    (getJobView 1 ⟨"j", "completed", "m", some "W", some "addr",
        some 5, some 1, some 0, none, some 3⟩).payment = none :=
  (c10_job_view 1 ⟨"j", "completed", "m", some "W", some "addr",
    some 5, some 1, some 0, none, some 3⟩).1 (Or.inr rfl)
